import Mathlib

/-!
Verification development for the PLSSVM numerical solver stack.

Shallow embedding of the C++ sources over exact rationals:
* packed triangular index formulas (backends/SYCL/detail/matrix_view.hpp,
  backends/stdpar/kernel/cg_explicit/kernel_matrix_assembly.hpp),
* explicit kernel-matrix assembly (stdpar and HIP variants),
* dimensional reduction and the multi-RHS conjugate-gradients driver
  (src/plssvm/csvm.cpp),
* direct Cholesky factorisation and triangular solves
  (backends/SYCL/detail/linalg.hpp, preconditioners.hpp),
* SYCL per-feature kernel reductions (backends/SYCL/kernel/kernel_functions.hpp),
* preconditioner_type stream operators (src/plssvm/preconditioner_types.cpp),
* parameter validation (csvm::sanity_check_parameter, csvm::fit).
-/

attribute [local semireducible] Rat.add Rat.mul Rat.sub Rat.inv

namespace PLSSVM

/-! ### Packed triangular index formulas -/

/-- Flat offset used by matrix_view<matrix_type::upper>::operator():
data_[(row * (2 * n_rows - row + 1)) / 2 + (col - row) + padding * row]. -/
def upperViewIdx (n padding row col : ℕ) : ℕ :=
  (row * (2 * n - row + 1)) / 2 + (col - row) + padding * row

/-- Flat offset used by matrix_view<matrix_type::lower>::operator():
data_[(row * (row + 1)) / 2 + col + padding * row]. -/
def lowerViewIdx (padding row col : ℕ) : ℕ :=
  (row * (row + 1)) / 2 + col + padding * row

/-- Flat offset used by matrix_view<matrix_type::general>::operator():
data_[(row * n_cols + col) + padding * row]. -/
def generalViewIdx (ncols padding row col : ℕ) : ℕ :=
  row * ncols + col + padding * row

/-- Flat offset used by the stdpar device_kernel_assembly store:
ret_ptr[row_idx * (dept + PADDING_SIZE) + col_idx - row_idx * (row_idx + 1) / 2]. -/
def assemblyIdx (dept padding row col : ℕ) : ℕ :=
  row * (dept + padding) + col - row * (row + 1) / 2

/-- Row start offsets of the packed upper-triangular layout, defined
recursively: row i + 1 starts (n + padding - i) entries after row i. -/
def triRowStart (n padding : ℕ) : ℕ → ℕ
  | 0 => 0
  | i + 1 => triRowStart n padding i + (n + padding - i)

/-! ### Explicit kernel-matrix assembly (stdpar and HIP, linear kernel) -/

/-- Execute a list of (offset, value) stores on a flat buffer. -/
def writeList (ws : List (ℕ × ℚ)) (ret : List ℚ) : List ℚ :=
  ws.foldl (fun r w => r.set w.1 w.2) ret

/-- Feature-dimension dot product as read by the stdpar assembly kernel: the
data matrix is stored feature-major with leading dimension
dept + 1 + PADDING_SIZE, i.e. data_ptr[f * (dept + 1 + PADDING_SIZE) + idx].
This is the linear kernel value kernel(A_i, A_j). -/
def soaLinearKernel (dataf : ℕ → ℚ) (dept padding numFeatures i j : ℕ) : ℚ :=
  ((List.range numFeatures).map
    (fun f => dataf (f * (dept + 1 + padding) + i) * dataf (f * (dept + 1 + padding) + j))).sum

/-- Value computed by stdpar device_kernel_assembly for cell (row, col):
temp starts at QA_cost - q[row] - q[col], accumulates the feature dot
product, and receives + cost on the diagonal. -/
def assemblyEntry (dataf q : ℕ → ℚ) (QA_cost cost : ℚ)
    (dept padding numFeatures row col : ℕ) : ℚ :=
  let temp := QA_cost - q row - q col + soaLinearKernel dataf dept padding numFeatures row col
  if row = col then temp + cost else temp

/-- The store set of stdpar device_kernel_assembly: the range vector holds the
pairs (k / dept, k % dept) for k < dept * dept, and each pair with
row_idx <= col_idx stores one value at the packed offset. -/
def assemblyWrites (dataf q : ℕ → ℚ) (QA_cost cost : ℚ)
    (dept padding numFeatures : ℕ) : List (ℕ × ℚ) :=
  (List.range (dept * dept)).filterMap (fun k =>
    if k / dept ≤ k % dept then
      some (assemblyIdx dept padding (k / dept) (k % dept),
            assemblyEntry dataf q QA_cost cost dept padding numFeatures (k / dept) (k % dept))
    else none)

/-- stdpar device_kernel_assembly: perform every triangular store on the flat
ret buffer (the par_unseq stores hit pairwise distinct offsets, so this
sequential linearization is faithful). -/
def device_kernel_assembly (dataf q : ℕ → ℚ) (QA_cost cost : ℚ)
    (dept padding numFeatures : ℕ) (ret0 : List ℚ) : List ℚ :=
  writeList (assemblyWrites dataf q QA_cost cost dept padding numFeatures) ret0

/-! ### Multi-RHS conjugate gradients (csvm::conjugate_gradients) -/

/-- Dense matrix with one row per right-hand side (the soa_matrix padding is a
storage detail and is not modelled). -/
def Mat : Type := List (List ℚ)

/-- Modelled from the spec: per-row dot product R.T * D of detail/operators.hpp
(rowwise_dot), producing one scalar per right-hand side. -/
def rowwise_dot (A B : Mat) : List ℚ :=
  List.zipWith (fun r d => (List.zipWith (fun x y => x * y) r d).sum) A B

/-- Modelled from the spec: elementwise vector division used for
alpha = delta / rowwise_dot(D, Q) and beta = delta / delta_old. -/
def vecDiv (a b : List ℚ) : List ℚ := List.zipWith (fun x y => x / y) a b

/-- Modelled from the spec: rowwise_scale of detail/operators.hpp - scale row r
of the matrix by the r-th scalar. -/
def rowwise_scale (s : List ℚ) (A : Mat) : Mat :=
  List.zipWith (fun c (row : List ℚ) => row.map (fun x => c * x)) s A

/-- Modelled from the spec: masked_rowwise_scale of detail/operators.hpp -
row r is alpha[r] * D_row when mask[r] == 1 and the zero row otherwise. -/
def masked_rowwise_scale (mask : List ℕ) (s : List ℚ) (A : Mat) : Mat :=
  List.zipWith (fun (ms : ℕ × ℚ) (row : List ℚ) =>
    if ms.1 = 1 then row.map (fun x => ms.2 * x) else row.map (fun _ => (0 : ℚ)))
    (mask.zip s) A

/-- Elementwise matrix addition (operator+= on soa_matrix). -/
def matAdd (A B : Mat) : Mat := List.zipWith (fun r s => List.zipWith (· + ·) r s) A B

/-- Elementwise matrix subtraction (operator-= on soa_matrix). -/
def matSub (A B : Mat) : Mat := List.zipWith (fun r s => List.zipWith (· - ·) r s) A B

/-- All-ones matrix of the same shape as B: X's initialisation
soa_matrix{ shape{num_rhs, num_rows}, real_type{1.0} }. -/
def onesLike (B : Mat) : Mat := B.map (fun row => row.map (fun _ => (1 : ℚ)))

/-- R = B - A * X realised as run_blas_level_3(cg_solver, -1, A, X, 1, R) on a
fresh copy of B: the kernel-matrix handle is abstracted as the multiply
operator mulA. -/
def residual (mulA : Mat → Mat) (B X : Mat) : Mat := matSub B (mulA X)

/-- Number of already-converged right-hand sides: inner_product over delta and
delta0 counting rows with delta[i] <= eps * eps * delta0[i]. -/
def num_rhs_converged (eps : ℚ) (delta delta0 : List ℚ) : ℕ :=
  ((delta.zip delta0).filter (fun dd => decide (dd.1 ≤ eps * eps * dd.2))).length

/-- Mask of not-yet-converged right-hand sides:
0 if delta[i] <= eps * eps * delta0[i], 1 otherwise. -/
def calculate_rhs_converged_mask (eps : ℚ) (delta delta0 : List ℚ) : List ℕ :=
  (delta.zip delta0).map (fun dd => if dd.1 ≤ eps * eps * dd.2 then 0 else 1)

/-- Additional masking inside the iteration body: a row with an exactly zero
residual vector may not update X even if not converged. -/
def zeroResidualMask (R : Mat) (mask : List ℕ) : List ℕ :=
  List.zipWith (fun (m : ℕ) (row : List ℚ) =>
    if m = 1 ∧ row.all (fun x => decide (x = 0)) then 0 else m) mask R

/-- The mutable state of one CG invocation. -/
structure CGState where
  X : Mat
  R : Mat
  D : Mat
  delta : List ℚ
  iter : ℕ

/-- State after csvm::conjugate_gradients' initialisation: X all ones,
R = B - A * X, D = M * R when preconditioned else a copy of R,
delta = rowwise_dot R D, iter = 0. -/
def cgInit (mulA : Mat → Mat) (applyM : Option (Mat → Mat)) (B : Mat) : CGState :=
  let X := onesLike B
  let R := residual mulA B X
  let D := match applyM with
    | some f => f R
    | none => R
  { X := X, R := R, D := D, delta := rowwise_dot R D, iter := 0 }

/-- One body of the while loop of csvm::conjugate_gradients. -/
def cgStep (mulA : Mat → Mat) (applyM : Option (Mat → Mat)) (B : Mat) (eps : ℚ)
    (delta0 : List ℚ) (s : CGState) : CGState :=
  let Q := mulA s.D
  let alpha := vecDiv s.delta (rowwise_dot s.D Q)
  let mask := zeroResidualMask s.R (calculate_rhs_converged_mask eps s.delta delta0)
  let X := matAdd s.X (masked_rowwise_scale mask alpha s.D)
  let R := if s.iter % 50 = 49 then residual mulA B X
           else matSub s.R (rowwise_scale alpha Q)
  let S := match applyM with
    | some f => f R
    | none => R
  let delta := rowwise_dot R S
  let beta := vecDiv delta s.delta
  let D := matAdd (rowwise_scale beta s.D) S
  { X := X, R := R, D := D, delta := delta, iter := s.iter + 1 }

/-- The while loop: runs while iter < max_cg_iter (fuel counts the remaining
allowed iterations) and num_rhs_converged() < num_rhs. -/
def cgRun (mulA : Mat → Mat) (applyM : Option (Mat → Mat)) (B : Mat) (eps : ℚ)
    (delta0 : List ℚ) (numRhs : ℕ) : ℕ → CGState → CGState
  | 0, s => s
  | fuel + 1, s =>
      if num_rhs_converged eps s.delta delta0 < numRhs then
        cgRun mulA applyM B eps delta0 numRhs fuel (cgStep mulA applyM B eps delta0 s)
      else s

/-- csvm::conjugate_gradients: returns the pair (X, iterations performed).
num_rhs = B.num_rows (one row per right-hand side); delta0 is fixed at
initialisation. -/
def conjugate_gradients (mulA : Mat → Mat) (applyM : Option (Mat → Mat)) (B : Mat)
    (eps : ℚ) (max_cg_iter : ℕ) : Mat × ℕ :=
  let s0 := cgInit mulA applyM B
  let sF := cgRun mulA applyM B eps s0.delta B.length max_cg_iter s0
  (sF.X, sF.iter)

/-- HIP device_kernel_assembly_linear: the feature dot product accumulated by
the tiled loop, reading data_d[dim * (num_rows + 1) + idx] (the shared-memory
tiles zero-pad past num_features, so the tiled sum equals this plain sum). -/
def hipLinearKernel (dataf : ℕ → ℚ) (numRows numFeatures i j : ℕ) : ℚ :=
  ((List.range numFeatures).map
    (fun f => dataf (f * (numRows + 1) + i) * dataf (f * (numRows + 1) + j))).sum

/-- HIP device_kernel_assembly_linear: the value stored for a cell (i, j) with
i >= j, both < num_rows: temp + QA_cost - q[i] - q[j], plus cost when i == j,
stored at ret[j * num_rows + i - j * (j + 1) / 2]. -/
def hipAssemblyEntry (dataf q : ℕ → ℚ) (QA_cost cost : ℚ)
    (numRows numFeatures i j : ℕ) : ℚ :=
  let temp := hipLinearKernel dataf numRows numFeatures i j + QA_cost - q i - q j
  if i = j then temp + cost else temp

/-- HIP store offset ret[j * num_rows + i - j * (j + 1) / 2] (the packed,
non-GEMM branch). -/
def hipAssemblyIdx (numRows i j : ℕ) : ℕ := j * numRows + i - j * (j + 1) / 2

/-! ### Dimensional reduction (csvm::perform_dimensional_reduction) -/

/-- plssvm::kernel_function_type (kernel_function_types.hpp): the six kernel
families, with their underlying integer values 0..5. -/
inductive KernelFunctionType where
  | linear
  | polynomial
  | rbf
  | sigmoid
  | laplacian
  | chi_squared
deriving DecidableEq

/-- detail::to_underlying for kernel_function_type. -/
def kernelTypeValue : KernelFunctionType → ℤ
  | .linear => 0
  | .polynomial => 1
  | .rbf => 2
  | .sigmoid => 3
  | .laplacian => 4
  | .chi_squared => 5

/-- csvm::perform_dimensional_reduction. The per-pair kernel evaluations
kernel_function<type>(A, i, A, j, params...) are abstracted by the family
kf : KernelFunctionType -> row -> row -> value (the kernel_function
implementations live outside the solver core). The PLSSVM_ASSERT on an empty
matrix is modelled as the none case. Returns (q_red, QA_cost). -/
def perform_dimensional_reduction (kf : KernelFunctionType → ℕ → ℕ → ℚ)
    (kernel_type : KernelFunctionType) (numRows : ℕ) (cost : ℚ) :
    Option (List ℚ × ℚ) :=
  if numRows = 0 then none
  else
    let num_rows_reduced := numRows - 1
    let q_red : List ℚ :=
      match kernel_type with
      | .linear => (List.range num_rows_reduced).map
          (fun i => kf .linear i num_rows_reduced)
      | .polynomial => (List.range num_rows_reduced).map
          (fun i => kf .polynomial i num_rows_reduced)
      | .rbf => (List.range num_rows_reduced).map
          (fun i => kf .rbf i num_rows_reduced)
      | .sigmoid => (List.range num_rows_reduced).map
          (fun i => kf .sigmoid i num_rows_reduced)
      | .laplacian => (List.range num_rows_reduced).map
          (fun i => kf .laplacian i num_rows_reduced)
      | .chi_squared => (List.range num_rows_reduced).map
          (fun i => kf .chi_squared i num_rows_reduced)
    let QA_cost := kf kernel_type num_rows_reduced num_rows_reduced + 1 / cost
    some (q_red, QA_cost)

/-! ### SYCL linear algebra: direct Cholesky and triangular solves -/

/-- Largest r with r * r <= n, by exhaustive search (kernel-reducible). -/
def natSqrtL (n : ℕ) : ℕ :=
  ((List.range (n + 1)).filter (fun r => decide (r * r ≤ n))).length - 1

/-- Exact rational square root, modelling std::sqrt on inputs whose square
root is rational (the concrete SPD test matrix has an exact factor). -/
def ratSqrt (x : ℚ) : ℚ :=
  let r : ℚ := (natSqrtL x.num.toNat : ℚ) / (natSqrtL x.den : ℚ)
  if r * r = x then r else 0

/-- Read entry (row, col) of a flat buffer through the upper-triangular view. -/
def uget (n padding : ℕ) (U : List ℚ) (row col : ℕ) : ℚ :=
  U.getD (upperViewIdx n padding row col) 0

/-- Write entry (row, col) of a flat buffer through the upper-triangular view. -/
def uset (n padding : ℕ) (U : List ℚ) (row col : ℕ) (v : ℚ) : List ℚ :=
  U.set (upperViewIdx n padding row col) v

/-- Read entry (row, col) of a flat buffer through the lower-triangular view. -/
def lget (padding : ℕ) (L : List ℚ) (row col : ℕ) : ℚ :=
  L.getD (lowerViewIdx padding row col) 0

/-- Write entry (row, col) of a flat buffer through the lower-triangular view. -/
def lset (padding : ℕ) (L : List ℚ) (row col : ℕ) (v : ℚ) : List ℚ :=
  L.set (lowerViewIdx padding row col) v

/-- Read entry (row, col) of a flat buffer through the general view. -/
def gget (ncols padding : ℕ) (A : List ℚ) (row col : ℕ) : ℚ :=
  A.getD (generalViewIdx ncols padding row col) 0

/-- Write entry (row, col) of a flat buffer through the general view. -/
def gset (ncols padding : ℕ) (A : List ℚ) (row col : ℕ) (v : ℚ) : List ℚ :=
  A.set (generalViewIdx ncols padding row col) v

/-- linalg::direct_cholesky: for each row, for each col in [row, n), compute
sum = Σ_{k<row} U(k,row) * U(k,col); the diagonal gets
sqrt(A(row,row) - sum), off-diagonal entries (A(row,col) - sum) / U(row,row).
The single_task loop nest is sequential, so the fold order is the source
order. -/
def direct_cholesky (n padding : ℕ) (A U0 : List ℚ) : List ℚ :=
  (List.range n).foldl (fun U row =>
    ((List.range (n - row)).map (fun d => d + row)).foldl (fun U col =>
      let sum := ((List.range row).map
        (fun k => uget n padding U k row * uget n padding U k col)).sum
      if row = col then
        uset n padding U row col (ratSqrt (uget n padding A row row - sum))
      else
        uset n padding U row col ((uget n padding A row col - sum) / uget n padding U row row))
      U) U0

/-- linalg::blas::trsm with a lower-triangular A (forward solve): for each
column, rows from first to last, X(row,col) = (B(row,col) - dot) / A(row,row)
with dot = Σ_{k<row} A(row,k) * X(k,col). n = B.n_rows, k = B.n_cols. -/
def trsm_lower (n ncols padA padB padX : ℕ) (A B X0 : List ℚ) : List ℚ :=
  (List.range ncols).foldl (fun X col =>
    (List.range n).foldl (fun X row =>
      let dot := ((List.range row).map
        (fun k => lget padA A row k * gget ncols padX X k col)).sum
      gset ncols padX X row col ((gget ncols padB B row col - dot) / lget padA A row row))
      X) X0

/-- linalg::blas::trsm with an upper-triangular A (backward solve): for each
column, r = (n_rows - 1) - row runs from the last row to the first,
X(r,col) = (B(r,col) - dot) / A(r,r) with dot = Σ_{k in (r, n)} A(r,k) * X(k,col). -/
def trsm_upper (n ncols padA padB padX : ℕ) (A B X0 : List ℚ) : List ℚ :=
  (List.range ncols).foldl (fun X col =>
    (List.range n).foldl (fun X row =>
      let r := (n - 1) - row
      let dot := ((List.range (n - (r + 1))).map (fun d => d + (r + 1))).foldl
        (fun acc k => acc + uget n padA A r k * gget ncols padX X k col) 0
      gset ncols padX X r col ((gget ncols padB B r col - dot) / uget n padA A r r))
      X) X0

/-- helper::transpose (upper to lower): L(col, row) = U(row, col) for every
cell with col >= row, written into a zeroed buffer of the same packed size. -/
def transpose_upper (n padding : ℕ) (U : List ℚ) : List ℚ :=
  (List.range n).foldl (fun L row =>
    ((List.range (n - row)).map (fun d => d + row)).foldl (fun L col =>
      lset padding L col row (uget n padding U row col)) L)
    (List.replicate (n * (n + 1) / 2) 0)

/-- precond::cholesky's apply_preconditioner for a single flat right-hand side:
Y = trsm(transpose(M), R) then S = trsm(M, Y), both solves on zeroed outputs. -/
def cholesky_apply (n ncols : ℕ) (M R : List ℚ) : List ℚ :=
  let MT := transpose_upper n 0 M
  let Y := trsm_lower n ncols 0 0 0 MT R (List.replicate (n * ncols) 0)
  trsm_upper n ncols 0 0 0 M Y (List.replicate (n * ncols) 0)

/-! ### SYCL per-feature kernel reductions and post-reduce transforms -/

/-- sycl::detail::feature_reduce: the default dot-product reduction with the
rbf, laplacian and chi_squared specialisations; the chi_squared case guards
the division by returning 0 when the denominator u + v is 0. -/
def feature_reduce (kernel : KernelFunctionType) (val1 val2 : ℚ) : ℚ :=
  match kernel with
  | .rbf => (val1 - val2) * (val1 - val2)
  | .laplacian => |val1 - val2|
  | .chi_squared =>
      let s := val1 + val2
      if s = 0 then 0
      else
        let d := val1 - val2
        (d * d) / s
  | _ => val1 * val2

/-- sycl::detail::apply_kernel_function: the post-reduce scalar transform.
The transcendental device functions sycl::exp and sycl::tanh are abstracted
as oracles expO and tanhO; sycl::pown is exact integer power. -/
def apply_kernel_function (expO tanhO : ℚ → ℚ) (kernel : KernelFunctionType)
    (degree : ℤ) (gamma coef0 value : ℚ) : ℚ :=
  match kernel with
  | .linear => value
  | .polynomial => (gamma * value + coef0) ^ degree
  | .rbf => expO (-gamma * value)
  | .sigmoid => tanhO (gamma * value + coef0)
  | .laplacian => expO (-gamma * value)
  | .chi_squared => expO (-gamma * value)

/-! ### preconditioner_type stream operators -/

/-- plssvm::preconditioner_type (preconditioner_types.hpp). -/
inductive PreconditionerType where
  | none
  | jacobi
  | cholesky
deriving DecidableEq

/-- operator<<(std::ostream, preconditioner_type): the switch prints none and
jacobi; every other value (including cholesky) falls through to unknown.
Streamed text is modelled as a list of characters. -/
def preconditionerTypeToString : PreconditionerType → List Char
  | .none => "none".toList
  | .jacobi => "jacobi".toList
  | .cholesky => "unknown".toList

/-- detail::to_lower_case, modelled as per-character lower-casing. -/
def toLowerCase (s : List Char) : List Char := s.map Char.toLower

/-- operator>>(std::istream, preconditioner_type): lower-case the token, accept
none and jacobi, set failbit (modelled as Option.none) otherwise. -/
def parsePreconditionerType (s : List Char) : Option PreconditionerType :=
  let str := toLowerCase s
  if str = "none".toList then some PreconditionerType.none
  else if str = "jacobi".toList then some PreconditionerType.jacobi
  else Option.none

/-! ### Parameter validation (csvm::sanity_check_parameter and csvm::fit) -/

/-- params_.gamma: std::variant<real_type, gamma_coefficient_type> - either an
explicitly provided real value or a deferred automatic coefficient. -/
inductive GammaValue where
  | value (g : ℚ)
  | automatic
deriving DecidableEq

/-- The error cases surfaced as invalid_parameter_exception. -/
inductive InvalidParameter where
  | kernelType
  | gamma
  | epsilon
  | maxIter
deriving DecidableEq

/-- csvm::sanity_check_parameter: rejects an underlying kernel value outside
[0, 6); rejects gamma <= 0 only when the kernel is not linear and gamma was
explicitly provided as a real value; degree, coef0 and cost are all allowed.
Returns the thrown invalid_parameter_exception, or none when no check fires. -/
def sanity_check_gamma (kernel_type_value : ℤ) : GammaValue → Option InvalidParameter
  | .value g =>
      if kernel_type_value ≠ kernelTypeValue KernelFunctionType.linear ∧ g ≤ 0 then
        some InvalidParameter.gamma
      else Option.none
  | .automatic => Option.none

def sanity_check_parameter (kernel_type_value : ℤ) (gamma : GammaValue)
    (_degree : ℤ) (_coef0 _cost : ℚ) : Option InvalidParameter :=
  if kernel_type_value < 0 ∨ 6 ≤ kernel_type_value then
    some InvalidParameter.kernelType
  else
    sanity_check_gamma kernel_type_value gamma

/-- The epsilon and max_iter checks of csvm::fit, performed at the API
boundary before any backend work: an explicitly provided epsilon <= 0 or
max_iter == 0 throws invalid_parameter_exception. Returns the thrown
exception, or none when no check fires. -/
def fit_check_max_iter : Option ℕ → Option InvalidParameter
  | some m => if m = 0 then some InvalidParameter.maxIter else Option.none
  | Option.none => Option.none

def fit_check_named_args : Option ℚ → Option ℕ → Option InvalidParameter
  | some e, max_iter =>
      if e ≤ 0 then some InvalidParameter.epsilon else fit_check_max_iter max_iter
  | Option.none, max_iter => fit_check_max_iter max_iter

/-! ### Packed-layout and assembly lemmas -/

lemma two_mul_triangle (i : ℕ) : 2 * (i * (i + 1) / 2) = i * (i + 1) :=
  Nat.two_mul_div_two_of_even (by rcases Nat.even_or_odd i with h | h
                                  · exact h.mul_right _
                                  · exact (Odd.add_one h).mul_left _)

lemma triangle_succ (i : ℕ) : (i + 1) * (i + 1 + 1) / 2 = i * (i + 1) / 2 + (i + 1) := by
  have h1 := two_mul_triangle i
  have h2 := two_mul_triangle (i + 1)
  have h3 : (i + 1) * (i + 1 + 1) = i * (i + 1) + 2 * (i + 1) := by ring
  omega

lemma triangle_le_sq (i : ℕ) : i * (i + 1) / 2 ≤ i * i := by
  have h1 := two_mul_triangle i
  nlinarith [Nat.zero_le i]

/-- The stdpar assembly offset agrees with the recursive row-start layout. -/
lemma assemblyIdx_eq_rowStart (n padding : ℕ) :
    ∀ row col, row ≤ col → col < n →
      assemblyIdx n padding row col = triRowStart n padding row + (col - row) := by
  intro row
  induction row with
  | zero => intro col _ _; simp [assemblyIdx, triRowStart]
  | succ i ih =>
      intro col hle hlt
      have hi : i < n := by omega
      have hbase := ih i le_rfl hi
      have hidx : assemblyIdx n padding i i = i * (n + padding) + i - i * (i + 1) / 2 := rfl
      have htri : i * (i + 1) / 2 ≤ i * (n + padding) := by
        calc i * (i + 1) / 2 ≤ i * i := triangle_le_sq i
        _ ≤ i * (n + padding) := Nat.mul_le_mul_left i (by omega)
      have htris := triangle_succ i
      have htri2 : (i + 1) * (i + 1 + 1) / 2 ≤ (i + 1) * (n + padding) := by
        calc (i + 1) * (i + 1 + 1) / 2 ≤ (i + 1) * (i + 1) := triangle_le_sq (i + 1)
        _ ≤ (i + 1) * (n + padding) := Nat.mul_le_mul_left _ (by omega)
      have hmul : (i + 1) * (n + padding) = i * (n + padding) + (n + padding) := by ring
      have hstep : triRowStart n padding (i + 1)
          = triRowStart n padding i + (n + padding - i) := rfl
      have hgoal : assemblyIdx n padding (i + 1) col
          = (i + 1) * (n + padding) + col - (i + 1) * (i + 1 + 1) / 2 := rfl
      omega

/-- The matrix_view upper-triangular offset (which is literally the spec
formula idx(i,j) = i*(2n-i+1)/2 + (j-i) + padding*i) agrees with the
recursive row-start layout. -/
lemma upperViewIdx_eq_rowStart (n padding : ℕ) :
    ∀ row col, row ≤ col → col < n →
      upperViewIdx n padding row col = triRowStart n padding row + (col - row) := by
  intro row
  induction row with
  | zero => intro col _ _; simp [upperViewIdx, triRowStart]
  | succ i ih =>
      intro col hle hlt
      have hi : i < n := by omega
      have hbase := ih i le_rfl hi
      have hidx : upperViewIdx n padding i i
          = (i * (2 * n - i + 1)) / 2 + (i - i) + padding * i := rfl
      have hgoal : upperViewIdx n padding (i + 1) col
          = ((i + 1) * (2 * n - (i + 1) + 1)) / 2 + (col - (i + 1)) + padding * (i + 1) := rfl
      -- expand the two even products
      have he1 : 2 * ((i * (2 * n - i + 1)) / 2) = i * (2 * n - i + 1) := by
        refine Nat.two_mul_div_two_of_even ?_
        rcases Nat.even_or_odd i with h | h
        · exact h.mul_right _
        · refine Even.mul_left ?_ _
          have : Odd (2 * n - i) := by
            rcases h with ⟨k, hk⟩
            exact ⟨n - k - 1, by omega⟩
          rcases this with ⟨k, hk⟩
          exact ⟨k + 1, by omega⟩
      have he2 : 2 * (((i + 1) * (2 * n - (i + 1) + 1)) / 2) = (i + 1) * (2 * n - (i + 1) + 1) := by
        refine Nat.two_mul_div_two_of_even ?_
        rcases Nat.even_or_odd (i + 1) with h | h
        · exact h.mul_right _
        · refine Even.mul_left ?_ _
          have : Odd (2 * n - (i + 1)) := by
            rcases h with ⟨k, hk⟩
            exact ⟨n - k - 1, by omega⟩
          rcases this with ⟨k, hk⟩
          exact ⟨k + 1, by omega⟩
      have hm1 : i * (2 * n - i + 1) + i * i = i * (2 * n + 1) := by
        have h : (2 * n - i + 1) + i = 2 * n + 1 := by omega
        calc i * (2 * n - i + 1) + i * i = i * ((2 * n - i + 1) + i) := by ring
        _ = i * (2 * n + 1) := by rw [h]
      have hm2 : (i + 1) * (2 * n - (i + 1) + 1) + (i + 1) * (i + 1) = (i + 1) * (2 * n + 1) := by
        have h : (2 * n - (i + 1) + 1) + (i + 1) = 2 * n + 1 := by omega
        calc (i + 1) * (2 * n - (i + 1) + 1) + (i + 1) * (i + 1)
            = (i + 1) * ((2 * n - (i + 1) + 1) + (i + 1)) := by ring
        _ = (i + 1) * (2 * n + 1) := by rw [h]
      have hm3 : (i + 1) * (2 * n + 1) = i * (2 * n + 1) + (2 * n + 1) := by ring
      have hm4 : (i + 1) * (i + 1) = i * i + 2 * i + 1 := by ring
      have hm5 : padding * (i + 1) = padding * i + padding := by ring
      have hstep : triRowStart n padding (i + 1)
          = triRowStart n padding i + (n + padding - i) := rfl
      omega

/-- Row starts are monotone in the row index. -/
lemma triRowStart_mono (n padding : ℕ) : Monotone (triRowStart n padding) := by
  apply monotone_nat_of_le_succ
  intro k
  have h : triRowStart n padding (k + 1) = triRowStart n padding k + (n + padding - k) := rfl
  omega

/-- Distinct packed-triangle cells are laid out at distinct flat offsets. -/
lemma assemblyIdx_injOn (n padding : ℕ) {i j i' j' : ℕ}
    (hij : i ≤ j) (hj : j < n) (hij' : i' ≤ j') (hj' : j' < n)
    (heq : assemblyIdx n padding i j = assemblyIdx n padding i' j') :
    i = i' ∧ j = j' := by
  have h1 := assemblyIdx_eq_rowStart n padding i j hij hj
  have h2 := assemblyIdx_eq_rowStart n padding i' j' hij' hj'
  -- in-row offsets stay strictly below the next row start
  have key : ∀ a b : ℕ, a ≤ b → b < n →
      triRowStart n padding a + (b - a) < triRowStart n padding (a + 1) := by
    intro a b hab hbn
    have : triRowStart n padding (a + 1) = triRowStart n padding a + (n + padding - a) := rfl
    omega
  rcases Nat.lt_trichotomy i i' with hlt | heqi | hgt
  · exfalso
    have hk := key i j hij hj
    have hmono := triRowStart_mono n padding (show i + 1 ≤ i' by omega)
    omega
  · constructor
    · exact heqi
    · subst heqi; omega
  · exfalso
    have hk := key i' j' hij' hj'
    have hmono := triRowStart_mono n padding (show i' + 1 ≤ i by omega)
    omega

/-- The triangle below row m plus the triangle of the remaining rows make up
the whole packed buffer. -/
lemma triRowStart_add_rest (n padding : ℕ) :
    ∀ m, m ≤ n + padding →
      triRowStart n padding m + (n + padding - m) * (n + padding - m + 1) / 2
        = (n + padding) * (n + padding + 1) / 2 := by
  intro m
  induction m with
  | zero => intro _; simp [triRowStart]
  | succ k ih =>
      intro hk
      have hbase := ih (by omega)
      have hstep : triRowStart n padding (k + 1) = triRowStart n padding k + (n + padding - k) := rfl
      have hsub : n + padding - k = (n + padding - (k + 1)) + 1 := by omega
      have htri : (n + padding - k) * (n + padding - k + 1) / 2
          = (n + padding - (k + 1)) * (n + padding - (k + 1) + 1) / 2 + (n + padding - k) := by
        rw [hsub]
        have := triangle_succ (n + padding - (k + 1))
        omega
      omega

lemma le_triangle (x : ℕ) : x ≤ x * (x + 1) / 2 := by
  have h1 := two_mul_triangle x
  have h2 : x * (x + 1) = x * x + x := by ring
  nlinarith [Nat.zero_le (x * x)]

/-- All packed offsets of an order-n triangle stay below the asserted
capacity (dept + PADDING) * (dept + PADDING + 1) / 2 of the ret buffer. -/
lemma assemblyIdx_lt_capacity (n padding : ℕ) {i j : ℕ}
    (hij : i ≤ j) (hj : j < n) :
    assemblyIdx n padding i j < (n + padding) * (n + padding + 1) / 2 := by
  have h1 := assemblyIdx_eq_rowStart n padding i j hij hj
  have h2 := triRowStart_add_rest n padding i (by omega)
  have h3 := le_triangle (n + padding - i)
  omega

lemma writeList_length (ws : List (ℕ × ℚ)) (ret : List ℚ) :
    (writeList ws ret).length = ret.length := by
  induction ws generalizing ret with
  | nil => rfl
  | cons w t ih => simpa [writeList] using ih (ret.set w.1 w.2)

lemma writeList_getElem?_of_not_mem (ws : List (ℕ × ℚ)) (ret : List ℚ) (o : ℕ)
    (ho : o ∉ ws.map Prod.fst) : (writeList ws ret)[o]? = ret[o]? := by
  induction ws generalizing ret with
  | nil => rfl
  | cons w t ih =>
      simp only [List.map_cons, List.mem_cons] at ho
      push_neg at ho
      have h1 : (writeList t (ret.set w.1 w.2))[o]? = (ret.set w.1 w.2)[o]? := ih _ ho.2
      have h2 : (ret.set w.1 w.2)[o]? = ret[o]? := List.getElem?_set_ne (by tauto)
      simpa [writeList] using h1.trans h2

lemma writeList_getElem?_of_mem (ws : List (ℕ × ℚ)) (ret : List ℚ) (o : ℕ) (v : ℚ)
    (hnd : (ws.map Prod.fst).Nodup) (hm : (o, v) ∈ ws) (hlen : o < ret.length) :
    (writeList ws ret)[o]? = some v := by
  induction ws generalizing ret with
  | nil => cases hm
  | cons w t ih =>
      simp only [List.map_cons, List.nodup_cons] at hnd
      rcases List.mem_cons.mp hm with h | h
      · have hw : w.1 = o ∧ w.2 = v := by
          constructor <;> simp [← h]
        have hrest : (writeList t (ret.set w.1 w.2))[o]? = (ret.set w.1 w.2)[o]? :=
          writeList_getElem?_of_not_mem t _ o (by rw [← hw.1]; exact hnd.1)
        have hset : (ret.set w.1 w.2)[o]? = some v := by
          rw [← hw.1, ← hw.2]
          exact List.getElem?_set_self (by rw [hw.1]; exact hlen)
        simpa [writeList] using hrest.trans hset
      · have := ih (ret.set w.1 w.2) hnd.2 h (by simpa using hlen)
        simpa [writeList] using this

lemma assemblyWrites_offsets :
    ∀ dataf q QA_cost cost dept padding numFeatures,
      (assemblyWrites dataf q QA_cost cost dept padding numFeatures).map Prod.fst
        = (List.range (dept * dept)).filterMap (fun k =>
            if k / dept ≤ k % dept then some (assemblyIdx dept padding (k / dept) (k % dept))
            else none) := by
  intro dataf q QA_cost cost dept padding numFeatures
  rw [assemblyWrites, List.map_filterMap]
  congr 1
  funext k
  by_cases h : k / dept ≤ k % dept <;> simp [h]

lemma assemblyWrites_offsets_nodup (dataf q : ℕ → ℚ) (QA_cost cost : ℚ)
    (dept padding numFeatures : ℕ) :
    ((assemblyWrites dataf q QA_cost cost dept padding numFeatures).map Prod.fst).Nodup := by
  rw [assemblyWrites_offsets]
  rcases Nat.eq_zero_or_pos dept with h0 | hpos
  · subst h0; simp
  refine List.Nodup.filterMap ?_ (List.nodup_range _)
  intro a b c hc1 hc2
  by_cases ha : a / dept ≤ a % dept
  · by_cases hb : b / dept ≤ b % dept
    · simp only [ha, hb, if_true, Option.mem_def, Option.some_inj] at hc1 hc2
      have hma : a % dept < dept := Nat.mod_lt _ hpos
      have hmb : b % dept < dept := Nat.mod_lt _ hpos
      obtain ⟨h1, h2⟩ := assemblyIdx_injOn dept padding ha hma hb hmb (hc1.trans hc2.symm)
      rw [← Nat.div_add_mod a dept, ← Nat.div_add_mod b dept, h1, h2]
    · simp [hb] at hc2
  · simp [ha] at hc1

lemma assemblyWrites_mem (dataf q : ℕ → ℚ) (QA_cost cost : ℚ)
    (dept padding numFeatures : ℕ) {i j : ℕ} (hij : i ≤ j) (hj : j < dept) :
    (assemblyIdx dept padding i j,
     assemblyEntry dataf q QA_cost cost dept padding numFeatures i j)
      ∈ assemblyWrites dataf q QA_cost cost dept padding numFeatures := by
  have hi : i < dept := lt_of_le_of_lt hij hj
  have hdiv : (j + i * dept) / dept = i := by
    rw [Nat.add_mul_div_right _ _ (by omega), Nat.div_eq_of_lt hj]
    omega
  have hmod : (j + i * dept) % dept = j := by
    rw [Nat.add_mul_mod_self_right, Nat.mod_eq_of_lt hj]
  refine List.mem_filterMap.mpr ⟨j + i * dept, ?_, ?_⟩
  · refine List.mem_range.mpr ?_
    have h1 : i * dept + dept ≤ dept * dept := by
      have := Nat.mul_le_mul_right dept (show i + 1 ≤ dept by omega)
      calc i * dept + dept = (i + 1) * dept := by ring
      _ ≤ dept * dept := this
    omega
  · rw [hdiv, hmod, if_pos hij]

/-- Reading back any triangular cell of the assembled packed matrix gives the
value the assembly computed for it. -/
lemma device_kernel_assembly_read (dataf q : ℕ → ℚ) (QA_cost cost : ℚ)
    (dept padding numFeatures : ℕ) (ret0 : List ℚ) {i j : ℕ}
    (hij : i ≤ j) (hj : j < dept)
    (hlen : ret0.length = (dept + padding) * (dept + padding + 1) / 2) :
    (device_kernel_assembly dataf q QA_cost cost dept padding numFeatures ret0).getD
        (assemblyIdx dept padding i j) 0
      = assemblyEntry dataf q QA_cost cost dept padding numFeatures i j := by
  have hcap : assemblyIdx dept padding i j < ret0.length := by
    rw [hlen]; exact assemblyIdx_lt_capacity dept padding hij hj
  have h := writeList_getElem?_of_mem
    (assemblyWrites dataf q QA_cost cost dept padding numFeatures) ret0
    (assemblyIdx dept padding i j)
    (assemblyEntry dataf q QA_cost cost dept padding numFeatures i j)
    (assemblyWrites_offsets_nodup dataf q QA_cost cost dept padding numFeatures)
    (assemblyWrites_mem dataf q QA_cost cost dept padding numFeatures hij hj)
    hcap
  rw [device_kernel_assembly, List.getD_eq_getElem?_getD, h]
  rfl

/-! ### CG loop characterisation -/

lemma cgStep_iter (mulA : Mat → Mat) (applyM : Option (Mat → Mat)) (B : Mat)
    (eps : ℚ) (delta0 : List ℚ) (s : CGState) :
    (cgStep mulA applyM B eps delta0 s).iter = s.iter + 1 := rfl

lemma cgIterate_iter (mulA : Mat → Mat) (applyM : Option (Mat → Mat)) (B : Mat)
    (eps : ℚ) (delta0 : List ℚ) :
    ∀ (k : ℕ) (s : CGState),
      ((cgStep mulA applyM B eps delta0)^[k] s).iter = s.iter + k := by
  intro k
  induction k with
  | zero => intro s; simp
  | succ m ih =>
      intro s
      rw [Function.iterate_succ_apply]
      rw [ih (cgStep mulA applyM B eps delta0 s)]
      rw [cgStep_iter]
      omega

/-- The while loop performs some number n <= fuel of steps: the loop condition
held before each performed step, and if the loop stopped early the condition
failed at the stopping state. -/
lemma cgRun_spec (mulA : Mat → Mat) (applyM : Option (Mat → Mat)) (B : Mat)
    (eps : ℚ) (delta0 : List ℚ) (numRhs : ℕ) :
    ∀ (fuel : ℕ) (s : CGState), ∃ n, n ≤ fuel ∧
      cgRun mulA applyM B eps delta0 numRhs fuel s
        = (cgStep mulA applyM B eps delta0)^[n] s ∧
      (∀ k < n, num_rhs_converged eps
        (((cgStep mulA applyM B eps delta0)^[k] s).delta) delta0 < numRhs) ∧
      (n < fuel → ¬ num_rhs_converged eps
        (((cgStep mulA applyM B eps delta0)^[n] s).delta) delta0 < numRhs) := by
  intro fuel
  induction fuel with
  | zero =>
      intro s
      exact ⟨0, le_rfl, rfl, by omega, by omega⟩
  | succ f ih =>
      intro s
      by_cases hc : num_rhs_converged eps s.delta delta0 < numRhs
      · obtain ⟨n, hn, heq, hall, hstop⟩ := ih (cgStep mulA applyM B eps delta0 s)
        refine ⟨n + 1, by omega, ?_, ?_, ?_⟩
        · rw [cgRun, if_pos hc, heq, Function.iterate_succ_apply]
        · intro k hk
          cases k with
          | zero => simpa using hc
          | succ m =>
              rw [Function.iterate_succ_apply]
              exact hall m (by omega)
        · intro hlt
          rw [Function.iterate_succ_apply]
          exact hstop (by omega)
      · refine ⟨0, by omega, ?_, by omega, ?_⟩
        · rw [cgRun, if_neg hc]
          simp
        · intro _
          simpa using hc

/-- With matching lengths, the global stop test num_rhs_converged >= num_rhs
is the per-row predicate delta[row] <= eps^2 * delta0[row] for every row. -/
lemma num_rhs_converged_all (eps : ℚ) (delta delta0 : List ℚ) (numRhs : ℕ)
    (h1 : delta.length = numRhs) (h2 : delta0.length = numRhs) :
    (¬ num_rhs_converged eps delta delta0 < numRhs) ↔
      ∀ i < numRhs, delta.getD i 0 ≤ eps ^ 2 * delta0.getD i 0 := by
  have hzip : (delta.zip delta0).length = numRhs := by
    rw [List.length_zip, h1, h2, min_self]
  have hle := List.length_filter_le
    (fun dd : ℚ × ℚ => decide (dd.1 ≤ eps * eps * dd.2)) (delta.zip delta0)
  constructor
  · intro h i hi
    unfold num_rhs_converged at h
    have heq : (List.filter (fun dd : ℚ × ℚ => decide (dd.1 ≤ eps * eps * dd.2))
        (delta.zip delta0)).length = (delta.zip delta0).length := by omega
    have hall := List.filter_length_eq_length.mp heq
    have hmem : (delta.getD i 0, delta0.getD i 0) ∈ delta.zip delta0 := by
      have hi1 : i < delta.length := by omega
      have hi2 : i < delta0.length := by omega
      have hi3 : i < (delta.zip delta0).length := by omega
      have : (delta.zip delta0)[i] = (delta[i], delta0[i]) := List.getElem_zip
      have hd1 : delta.getD i 0 = delta[i] := by
        rw [List.getD_eq_getElem?_getD, List.getElem?_eq_getElem hi1]; rfl
      have hd2 : delta0.getD i 0 = delta0[i] := by
        rw [List.getD_eq_getElem?_getD, List.getElem?_eq_getElem hi2]; rfl
      rw [hd1, hd2, ← this]
      exact List.getElem_mem hi3
    have := hall _ hmem
    simp only [decide_eq_true_eq] at this
    calc delta.getD i 0 ≤ eps * eps * delta0.getD i 0 := this
    _ = eps ^ 2 * delta0.getD i 0 := by ring_nf
  · intro h
    have hall : ∀ dd ∈ delta.zip delta0, decide (dd.1 ≤ eps * eps * dd.2) = true := by
      intro dd hdd
      obtain ⟨i, hi, hget⟩ := List.getElem_of_mem hdd
      have hi1 : i < delta.length := by omega
      have hi2 : i < delta0.length := by omega
      have hzz : (delta.zip delta0)[i] = (delta[i], delta0[i]) := List.getElem_zip
      have hd1 : delta.getD i 0 = delta[i] := by
        rw [List.getD_eq_getElem?_getD, List.getElem?_eq_getElem hi1]; rfl
      have hd2 : delta0.getD i 0 = delta0[i] := by
        rw [List.getD_eq_getElem?_getD, List.getElem?_eq_getElem hi2]; rfl
      have hbound := h i (by omega)
      rw [hd1, hd2] at hbound
      rw [← hget, hzz]
      simp only [decide_eq_true_eq]
      calc delta[i] ≤ eps ^ 2 * delta0[i] := hbound
      _ = eps * eps * delta0[i] := by ring_nf
    have : num_rhs_converged eps delta delta0 = numRhs := by
      unfold num_rhs_converged
      rw [List.filter_length_eq_length.mpr hall, hzip]
    omega

lemma getD_map_range (m : ℕ) (f : ℕ → ℚ) (i : ℕ) (hi : i < m) :
    ((List.range m).map f).getD i 0 = f i := by
  rw [List.getD_eq_getElem?_getD, List.getElem?_map, List.getElem?_range hi]
  rfl

/-! ### Claim theorems -/

/-- C4: On the concrete SPD input A = [[4,12,-16],[12,37,-43],[-16,-43,98]]
(packed upper), direct_cholesky produces U = [[2,6,-8],[0,1,5],[0,0,3]]; the
forward solve with U transposed on B = [1,2,3] yields y = [1/2,-1,4], the
backward solve with U yields z = [28+7/12, -(7+2/3), 4/3], and the full
Cholesky preconditioner apply produces that same z. -/
theorem cholesky_roundtrip_concrete :
    direct_cholesky 3 0 [4, 12, -16, 37, -43, 98] (List.replicate 6 0) = [2, 6, -8, 1, 5, 3]
    ∧ trsm_lower 3 1 0 0 0 (transpose_upper 3 0 [2, 6, -8, 1, 5, 3]) [1, 2, 3]
        (List.replicate 3 0) = [1/2, -1, 4]
    ∧ trsm_upper 3 1 0 0 0 [2, 6, -8, 1, 5, 3] [1/2, -1, 4] (List.replicate 3 0)
        = [28 + 7/12, -(7 + 2/3), 4/3]
    ∧ cholesky_apply 3 1 [2, 6, -8, 1, 5, 3] [1, 2, 3] = [28 + 7/12, -(7 + 2/3), 4/3] := by
  decide

/-- C10: The preconditioner_type stream operators print none and jacobi but
print cholesky as unknown; parsing is case-insensitive, accepts only none and
jacobi, and fails on everything else including cholesky; hence the
print-then-parse round trip holds for none and jacobi and fails for
cholesky. -/
theorem preconditioner_type_stream_roundtrip :
    preconditionerTypeToString PreconditionerType.none = "none".toList
    ∧ preconditionerTypeToString PreconditionerType.jacobi = "jacobi".toList
    ∧ preconditionerTypeToString PreconditionerType.cholesky = "unknown".toList
    ∧ parsePreconditionerType "none".toList = some PreconditionerType.none
    ∧ parsePreconditionerType "NoNe".toList = some PreconditionerType.none
    ∧ parsePreconditionerType "jacobi".toList = some PreconditionerType.jacobi
    ∧ parsePreconditionerType "JACOBI".toList = some PreconditionerType.jacobi
    ∧ parsePreconditionerType "cholesky".toList = Option.none
    ∧ parsePreconditionerType "Cholesky".toList = Option.none
    ∧ parsePreconditionerType "unknown".toList = Option.none
    ∧ parsePreconditionerType (preconditionerTypeToString PreconditionerType.none)
        = some PreconditionerType.none
    ∧ parsePreconditionerType (preconditionerTypeToString PreconditionerType.jacobi)
        = some PreconditionerType.jacobi
    ∧ parsePreconditionerType (preconditionerTypeToString PreconditionerType.cholesky)
        = Option.none := by
  decide

/-- C7 counterexample: with a valid rbf kernel, valid gamma, valid epsilon and
max_iter, and cost == 0, neither sanity_check_parameter nor the fit named-arg
checks raise any invalid-parameter error: cost is not validated. -/
theorem cost_zero_not_validated :
    sanity_check_parameter 2 (GammaValue.value 1) 3 0 0 = Option.none
    ∧ fit_check_named_args (some (1/1000)) (some 100) = Option.none := by
  decide

/-- C7 (amended): parameter validation raises an invalid-parameter error
exactly for: a kernel value outside [0, 6); an explicitly provided gamma <= 0
with a non-linear kernel; an explicitly provided eps <= 0; an explicitly
provided max_iter == 0. The cost argument plays no role in validation. -/
theorem parameter_validation_characterisation (ktv : ℤ) (g : GammaValue)
    (deg : ℤ) (c0 cost : ℚ) (eps : Option ℚ) (mi : Option ℕ) :
    (sanity_check_parameter ktv g deg c0 cost = some InvalidParameter.kernelType
      ↔ ktv < 0 ∨ 6 ≤ ktv)
    ∧ (sanity_check_parameter ktv g deg c0 cost = some InvalidParameter.gamma
      ↔ ¬(ktv < 0 ∨ 6 ≤ ktv) ∧ ∃ gv, g = GammaValue.value gv ∧ ktv ≠ 0 ∧ gv ≤ 0)
    ∧ (fit_check_named_args eps mi = some InvalidParameter.epsilon
      ↔ ∃ e, eps = some e ∧ e ≤ 0)
    ∧ (fit_check_named_args eps mi = some InvalidParameter.maxIter
      ↔ (∀ e, eps = some e → 0 < e) ∧ mi = some 0)
    ∧ sanity_check_parameter ktv g deg c0 0 = sanity_check_parameter ktv g deg c0 cost := by
  refine ⟨?_, ?_, ?_, ?_, rfl⟩
  · rw [sanity_check_parameter]
    split_ifs with h
    · simp [h]
    · cases g with
      | value gv =>
          rw [sanity_check_gamma]
          split_ifs with h2
          · exact ⟨fun hc => absurd hc (by decide), fun hr => absurd hr h⟩
          · exact ⟨fun hc => absurd hc (by decide), fun hr => absurd hr h⟩
      | automatic =>
          rw [sanity_check_gamma]
          exact ⟨fun hc => absurd hc (by decide), fun hr => absurd hr h⟩
  · rw [sanity_check_parameter]
    split_ifs with h
    · exact ⟨fun hc => absurd hc (by decide), fun hr => absurd h hr.1⟩
    · cases g with
      | value gv =>
          rw [sanity_check_gamma]
          simp only [kernelTypeValue]
          split_ifs with h2
          · exact ⟨fun _ => ⟨h, gv, rfl, h2⟩, fun _ => rfl⟩
          · refine ⟨fun hc => absurd hc (by decide), ?_⟩
            rintro ⟨-, gv2, hg, hne, hle⟩
            cases hg
            exact absurd ⟨hne, hle⟩ h2
      | automatic =>
          rw [sanity_check_gamma]
          refine ⟨fun hc => absurd hc (by decide), ?_⟩
          rintro ⟨-, gv, hg, -, -⟩
          exact absurd hg (by simp)
  · cases eps with
    | some e =>
        rw [fit_check_named_args]
        split_ifs with h
        · exact ⟨fun _ => ⟨e, rfl, h⟩, fun _ => rfl⟩
        · refine ⟨fun hc => ?_, ?_⟩
          · cases mi with
            | some m =>
                rw [fit_check_max_iter] at hc
                split_ifs at hc
                exact absurd hc (by decide)
            | none => exact absurd hc (by decide)
          · rintro ⟨e2, he, hle⟩
            cases he
            exact absurd hle h
    | none =>
        refine ⟨fun hc => ?_, ?_⟩
        · rw [fit_check_named_args] at hc
          cases mi with
          | some m =>
              rw [fit_check_max_iter] at hc
              split_ifs at hc
              exact absurd hc (by decide)
          | none => exact absurd hc (by decide)
        · rintro ⟨e2, he, -⟩
          exact absurd he (by simp)
  · cases eps with
    | some e =>
        rw [fit_check_named_args]
        split_ifs with h
        · refine ⟨fun hc => absurd hc (by decide), ?_⟩
          rintro ⟨hall, -⟩
          exact absurd (hall e rfl) (not_lt.mpr h)
        · cases mi with
          | some m =>
              rw [fit_check_max_iter]
              split_ifs with h2
              · refine ⟨fun _ => ⟨?_, by rw [h2]⟩, fun _ => rfl⟩
                intro e2 he2
                cases he2
                exact lt_of_not_le h
              · refine ⟨fun hc => absurd hc (by decide), ?_⟩
                rintro ⟨-, hm⟩
                cases hm
                exact absurd rfl h2
          | none =>
              refine ⟨fun hc => absurd hc (by decide), ?_⟩
              rintro ⟨-, hm⟩
              exact absurd hm (by simp)
    | none =>
        rw [fit_check_named_args]
        cases mi with
        | some m =>
            rw [fit_check_max_iter]
            split_ifs with h2
            · refine ⟨fun _ => ⟨?_, by rw [h2]⟩, fun _ => rfl⟩
              intro e2 he2
              exact absurd he2 (by simp)
            · refine ⟨fun hc => absurd hc (by decide), ?_⟩
              rintro ⟨-, hm⟩
              cases hm
              exact absurd rfl h2
        | none =>
            refine ⟨fun hc => absurd hc (by decide), ?_⟩
            rintro ⟨-, hm⟩
            exact absurd hm (by simp)

/-- C7 witness: a kernel value outside the enumerated range is rejected. -/
theorem parameter_validation_witness :
    sanity_check_parameter (-1) GammaValue.automatic 3 0 1 = some InvalidParameter.kernelType :=
  (parameter_validation_characterisation (-1) GammaValue.automatic 3 0 1
    Option.none Option.none).1.mpr (by decide)

/-- C9: the chi-squared per-feature reduction returns 0 when u + v == 0 and
(u-v)^2 / (u+v) otherwise (so the division never sees a zero denominator),
and the chi-squared post-reduction transform of s is exp(-gamma * s). -/
theorem chi_squared_guard_and_transform (u v gamma s coef0 : ℚ) (degree : ℤ)
    (expO tanhO : ℚ → ℚ) :
    (u + v = 0 → feature_reduce KernelFunctionType.chi_squared u v = 0)
    ∧ (u + v ≠ 0 →
        feature_reduce KernelFunctionType.chi_squared u v * (u + v) = (u - v) * (u - v))
    ∧ apply_kernel_function expO tanhO KernelFunctionType.chi_squared degree gamma coef0 s
        = expO (-gamma * s) := by
  refine ⟨?_, ?_, rfl⟩
  · intro h
    simp [feature_reduce, h]
  · intro h
    simp only [feature_reduce, if_neg h]
    exact div_mul_cancel₀ _ h

/-- C3: For a non-empty data matrix with numRows rows,
perform_dimensional_reduction returns q of length numRows - 1 with
q[i] = kernel(A_i, A_{numRows-1}) for every i, and
QA_cost = kernel(A_{numRows-1}, A_{numRows-1}) + 1/cost; an empty matrix is a
precondition violation (the PLSSVM_ASSERT case), not a recoverable state. -/
theorem perform_dimensional_reduction_spec (kf : KernelFunctionType → ℕ → ℕ → ℚ)
    (kt : KernelFunctionType) (numRows : ℕ) (cost : ℚ) (hpos : 0 < numRows) :
    (∃ q QA, perform_dimensional_reduction kf kt numRows cost = some (q, QA)
      ∧ q.length = numRows - 1
      ∧ (∀ i < numRows - 1, q.getD i 0 = kf kt i (numRows - 1))
      ∧ QA = kf kt (numRows - 1) (numRows - 1) + 1 / cost)
    ∧ perform_dimensional_reduction kf kt 0 cost = Option.none := by
  constructor
  · rw [perform_dimensional_reduction, if_neg (by omega)]
    cases kt <;>
      exact ⟨_, _, rfl, by simp, fun i hi => getD_map_range _ _ i hi, rfl⟩
  · rw [perform_dimensional_reduction]
    simp

/-- C3 witness: at a concrete kernel family and a 3-row matrix the reduction
exists and the empty matrix is rejected. -/
theorem perform_dimensional_reduction_witness :
    0 < 3
    ∧ perform_dimensional_reduction (fun _ i j => (10 * i + j : ℚ))
        KernelFunctionType.rbf 0 4 = Option.none :=
  ⟨by decide,
   (perform_dimensional_reduction_spec (fun _ i j => (10 * i + j : ℚ))
      KernelFunctionType.rbf 3 4 (by decide)).2⟩

/-- C2: Every stored entry of the explicitly assembled kernel matrix equals
kernel(A_i, A_j) + QA_cost - q[i] - q[j], with cost added exactly on the
diagonal: reading the stdpar-assembled packed buffer back at the packed offset
of any (i, j) with i <= j gives that value, and the HIP per-cell value (for
its i >= j orientation) is the same formula. -/
theorem assembled_entry_formula (dataf q : ℕ → ℚ) (QA_cost cost : ℚ)
    (dept padding numFeatures : ℕ) (ret0 : List ℚ) (i j : ℕ)
    (hij : i ≤ j) (hj : j < dept)
    (hlen : ret0.length = (dept + padding) * (dept + padding + 1) / 2) :
    (device_kernel_assembly dataf q QA_cost cost dept padding numFeatures ret0).getD
        (assemblyIdx dept padding i j) 0
      = soaLinearKernel dataf dept padding numFeatures i j + QA_cost - q i - q j
        + (if i = j then cost else 0)
    ∧ hipAssemblyEntry dataf q QA_cost cost dept numFeatures j i
      = hipLinearKernel dataf dept numFeatures j i + QA_cost - q j - q i
        + (if j = i then cost else 0) := by
  constructor
  · rw [device_kernel_assembly_read dataf q QA_cost cost dept padding numFeatures ret0
        hij hj hlen]
    rw [assemblyEntry]
    split_ifs with h
    · ring
    · ring
  · rw [hipAssemblyEntry]
    split_ifs with h
    · ring
    · ring

/-- C2 witness: a concrete 2-point assembly read back at the diagonal and
off-diagonal cells. -/
theorem assembled_entry_witness :
    (0 ≤ 1 ∧ 1 < 2
      ∧ (List.replicate 6 (0 : ℚ)).length = (2 + 1) * (2 + 1 + 1) / 2)
    ∧ (device_kernel_assembly (fun k => (k : ℚ)) (fun r => (r : ℚ)) 7 5 2 1 1
        (List.replicate 6 0)).getD (assemblyIdx 2 1 0 1) 0
      = soaLinearKernel (fun k => (k : ℚ)) 2 1 1 0 1 + 7 - 0 - 1
        + (if 0 = 1 then (5 : ℚ) else 0) :=
  ⟨⟨by decide, by decide, by decide⟩,
   (assembled_entry_formula (fun k => (k : ℚ)) (fun r => (r : ℚ)) 7 5 2 1 1
      (List.replicate 6 0) 0 1 (by decide) (by decide) (by decide)).1⟩

/-- C6: the stdpar assembly store offset coincides with the packed-symmetric
index formula idx(i,j) = i*(2n-i+1)/2 + (j-i) + padding*i of
matrix_view<upper>; the formula is injective on the triangle i <= j < n, and
the explicit assembly writes each triangular cell to exactly one flat
location (no symmetric entry is stored twice). -/
theorem packed_index_formula_and_write_once (n p i j i' j' : ℕ)
    (hij : i ≤ j) (hj : j < n) (hij' : i' ≤ j') (hj' : j' < n)
    (dataf q : ℕ → ℚ) (QA_cost cost : ℚ) (nf : ℕ) :
    assemblyIdx n p i j = upperViewIdx n p i j
    ∧ (assemblyIdx n p i j = assemblyIdx n p i' j' → i = i' ∧ j = j')
    ∧ ((assemblyWrites dataf q QA_cost cost n p nf).map Prod.fst).Nodup
    ∧ ((assemblyWrites dataf q QA_cost cost n p nf).map Prod.fst).count
        (assemblyIdx n p i j) = 1 := by
  refine ⟨?_, ?_, ?_, ?_⟩
  · rw [assemblyIdx_eq_rowStart n p i j hij hj, upperViewIdx_eq_rowStart n p i j hij hj]
  · intro heq
    exact assemblyIdx_injOn n p hij hj hij' hj' heq
  · exact assemblyWrites_offsets_nodup dataf q QA_cost cost n p nf
  · refine List.count_eq_one_of_mem
      (assemblyWrites_offsets_nodup dataf q QA_cost cost n p nf) ?_
    exact List.mem_map.mpr
      ⟨_, assemblyWrites_mem dataf q QA_cost cost n p nf hij hj, rfl⟩

/-- C6 witness: concrete packed offsets for n = 3, padding = 2. -/
theorem packed_index_witness :
    (0 ≤ 1 ∧ 1 < 3 ∧ 1 ≤ 2 ∧ 2 < 3)
    ∧ assemblyIdx 3 2 0 1 = upperViewIdx 3 2 0 1
    ∧ (assemblyIdx 3 2 0 1 = assemblyIdx 3 2 1 2 → 0 = 1 ∧ 1 = 2) :=
  ⟨⟨by decide, by decide, by decide, by decide⟩,
   (packed_index_formula_and_write_once 3 2 0 1 1 2 (by decide) (by decide)
      (by decide) (by decide) (fun _ => 0) (fun _ => 0) 0 0 0).1,
   (packed_index_formula_and_write_once 3 2 0 1 1 2 (by decide) (by decide)
      (by decide) (by decide) (fun _ => 0) (fun _ => 0) 0 0 0).2.1⟩

/-- C9 witness: at u = 1, v = -1 the denominator is 0 and the reduction
returns 0; at u = 3, v = 1 the reduction times the denominator recovers
(u - v)^2. -/
theorem chi_squared_guard_witness :
    feature_reduce KernelFunctionType.chi_squared 1 (-1) = 0
    ∧ feature_reduce KernelFunctionType.chi_squared 3 1 * (3 + 1) = (3 - 1) * (3 - 1) :=
  ⟨(chi_squared_guard_and_transform 1 (-1) 0 0 0 0 id id).1 (by norm_num),
   (chi_squared_guard_and_transform 3 1 0 0 0 0 id id).2.1 (by norm_num)⟩

/-- C1: a row counts as converged exactly when
delta[row] <= eps^2 * delta0[row] (delta0 fixed at initialisation); the loop
stops exactly when every row is converged or iter reached max_cg_iter; with
max_cg_iter = 1 and not everything converged at start the call performs
exactly one iteration, and with every row already converged at the start it
returns iterations_performed = 0. -/
theorem cg_convergence_predicate_and_stop (mulA : Mat → Mat)
    (applyM : Option (Mat → Mat)) (B : Mat) (eps : ℚ) (max_cg_iter : ℕ)
    (heps : 0 < eps) (hmax : 0 < max_cg_iter) :
    (∀ delta : List ℚ, delta.length = B.length →
      (cgInit mulA applyM B).delta.length = B.length →
      ((¬ num_rhs_converged eps delta (cgInit mulA applyM B).delta < B.length) ↔
        ∀ i < B.length, delta.getD i 0 ≤ eps ^ 2 * (cgInit mulA applyM B).delta.getD i 0))
    ∧ (conjugate_gradients mulA applyM B eps max_cg_iter).2 ≤ max_cg_iter
    ∧ (∀ k < (conjugate_gradients mulA applyM B eps max_cg_iter).2,
        num_rhs_converged eps
          (((cgStep mulA applyM B eps (cgInit mulA applyM B).delta)^[k]
              (cgInit mulA applyM B)).delta)
          (cgInit mulA applyM B).delta < B.length)
    ∧ ((conjugate_gradients mulA applyM B eps max_cg_iter).2 < max_cg_iter →
        ¬ num_rhs_converged eps
          (((cgStep mulA applyM B eps
              (cgInit mulA applyM B).delta)^[(conjugate_gradients mulA applyM B eps max_cg_iter).2]
              (cgInit mulA applyM B)).delta)
          (cgInit mulA applyM B).delta < B.length)
    ∧ (num_rhs_converged eps (cgInit mulA applyM B).delta (cgInit mulA applyM B).delta
          < B.length →
        max_cg_iter = 1 → (conjugate_gradients mulA applyM B eps max_cg_iter).2 = 1)
    ∧ (¬ num_rhs_converged eps (cgInit mulA applyM B).delta (cgInit mulA applyM B).delta
          < B.length →
        (conjugate_gradients mulA applyM B eps max_cg_iter).2 = 0) := by
  obtain ⟨n, hn, heq, hall, hstop⟩ := cgRun_spec mulA applyM B eps
    (cgInit mulA applyM B).delta B.length max_cg_iter (cgInit mulA applyM B)
  have hres : (conjugate_gradients mulA applyM B eps max_cg_iter).2
      = (cgRun mulA applyM B eps (cgInit mulA applyM B).delta B.length max_cg_iter
          (cgInit mulA applyM B)).iter := rfl
  have hinit : (cgInit mulA applyM B).iter = 0 := rfl
  have hiter : (conjugate_gradients mulA applyM B eps max_cg_iter).2 = n := by
    rw [hres, heq, cgIterate_iter]
    omega
  refine ⟨?_, ?_, ?_, ?_, ?_, ?_⟩
  · intro delta h1 h2
    exact num_rhs_converged_all eps delta _ B.length h1 h2
  · omega
  · intro k hk
    rw [hiter] at hk
    exact hall k hk
  · intro hlt
    rw [hiter] at hlt ⊢
    exact hstop hlt
  · intro hc h1
    rw [hiter]
    have hne : n ≠ 0 := by
      intro h0
      subst h0
      have := hstop (by omega)
      rw [Function.iterate_zero_apply] at this
      exact this hc
    omega
  · intro hc
    rw [hiter]
    by_contra h0
    have := hall 0 (by omega)
    rw [Function.iterate_zero_apply] at this
    exact hc this

/-- C1 witness: a 1x1 system with the zero multiply operator does not converge
at eps = 1/2, and max_cg_iter = 1 yields exactly one iteration. -/
theorem cg_stop_witness :
    (0 < (1/2 : ℚ) ∧ 0 < 1)
    ∧ (conjugate_gradients (fun _ => [[0]]) Option.none [[1]] (1/2) 1).2 = 1 :=
  ⟨⟨by norm_num, by decide⟩,
   (cg_convergence_predicate_and_stop (fun _ => [[0]]) Option.none [[1]] (1/2) 1
      (by norm_num) (by decide)).2.2.2.2.1 (by decide) rfl⟩

/-- C5: within the iteration body the residual is recomputed as
R := B - A * X via a fresh provider call exactly when iter % 50 = 49 (the
iterate index is the iter counter), and on every other iteration it is
updated as R := R - alpha_row * Q_row. -/
theorem cg_residual_refresh_policy (mulA : Mat → Mat) (applyM : Option (Mat → Mat))
    (B : Mat) (eps : ℚ) (delta0 : List ℚ) (s : CGState) (k : ℕ) :
    ((cgStep mulA applyM B eps delta0)^[k] (cgInit mulA applyM B)).iter = k
    ∧ (s.iter % 50 = 49 →
        (cgStep mulA applyM B eps delta0 s).R
          = residual mulA B (cgStep mulA applyM B eps delta0 s).X)
    ∧ (s.iter % 50 ≠ 49 →
        (cgStep mulA applyM B eps delta0 s).R
          = matSub s.R (rowwise_scale
              (vecDiv s.delta (rowwise_dot s.D (mulA s.D))) (mulA s.D))) := by
  have hinit : (cgInit mulA applyM B).iter = 0 := rfl
  refine ⟨?_, ?_, ?_⟩
  · rw [cgIterate_iter]
    omega
  · intro h
    simp only [cgStep]
    rw [if_pos h]
  · intro h
    simp only [cgStep]
    rw [if_neg h]

/-- C5 witness: at iter = 49 the refresh branch fires on a concrete state. -/
theorem cg_residual_refresh_witness :
    (49 % 50 = 49)
    ∧ (cgStep (fun _ => [[0]]) Option.none [[1]] 1 [1]
        (CGState.mk [[1]] [[1]] [[1]] [1] 49)).R
      = residual (fun _ => [[0]]) [[1]]
          (cgStep (fun _ => [[0]]) Option.none [[1]] 1 [1]
            (CGState.mk [[1]] [[1]] [[1]] [1] 49)).X :=
  ⟨by decide,
   (cg_residual_refresh_policy (fun _ => [[0]]) Option.none [[1]] 1 [1]
      (CGState.mk [[1]] [[1]] [[1]] [1] 49) 0).2.1 (by decide)⟩

/-- C8: conjugate_gradients always returns normally with the pair
(X, iterations_performed): the returned X is exactly the state after the
performed iterations, the count never exceeds max_cg_iter, and when rows are
still unconverged at exit the count equals max_cg_iter (non-convergence is
not an error and does not alter the returned best-effort X). -/
theorem cg_returns_best_effort (mulA : Mat → Mat) (applyM : Option (Mat → Mat))
    (B : Mat) (eps : ℚ) (max_cg_iter : ℕ) :
    ∃ n, n ≤ max_cg_iter
      ∧ conjugate_gradients mulA applyM B eps max_cg_iter
          = (((cgStep mulA applyM B eps (cgInit mulA applyM B).delta)^[n]
              (cgInit mulA applyM B)).X, n)
      ∧ (num_rhs_converged eps
            (((cgStep mulA applyM B eps (cgInit mulA applyM B).delta)^[n]
                (cgInit mulA applyM B)).delta)
            (cgInit mulA applyM B).delta < B.length → n = max_cg_iter) := by
  obtain ⟨n, hn, heq, hall, hstop⟩ := cgRun_spec mulA applyM B eps
    (cgInit mulA applyM B).delta B.length max_cg_iter (cgInit mulA applyM B)
  have hinit : (cgInit mulA applyM B).iter = 0 := rfl
  have h2 : ((cgStep mulA applyM B eps (cgInit mulA applyM B).delta)^[n]
      (cgInit mulA applyM B)).iter = n := by
    rw [cgIterate_iter]
    omega
  refine ⟨n, hn, ?_, ?_⟩
  · have h1 : conjugate_gradients mulA applyM B eps max_cg_iter
        = ((cgRun mulA applyM B eps (cgInit mulA applyM B).delta B.length max_cg_iter
            (cgInit mulA applyM B)).X,
           (cgRun mulA applyM B eps (cgInit mulA applyM B).delta B.length max_cg_iter
            (cgInit mulA applyM B)).iter) := rfl
    rw [h1, heq, h2]
  · intro hc
    by_contra hne
    exact hstop (by omega) hc

end PLSSVM
